import Mathlib

/-!
Verification of the AVL tree component (`src/avl_tree.hpp`) of the mystl
repository.  The C++ class `mystl::avl_tree<T, Comp>` is embedded shallowly,
specialised to `T = Int` with the default comparator `std::less<Int>`
(i.e. `<` on `Int`).  Each owned `node_ptr` (a `std::unique_ptr<node>`)
becomes a value of the inductive type `node`, with `node.nil` standing for a
null pointer.  The mutating member functions become pure functions returning
the updated tree; the `size_` member of `avl_tree` is tracked explicitly in
the structure `avl_tree`, and the `++size_` / `--size_` statements inside the
private recursive `insert` / `remove` are reflected by a `Bool` component
telling whether the counter was touched.
-/

namespace mystl

/-- The `node` struct of `avl_tree`: a value, owned left and right subtrees
(`node_ptr`, null represented by `nil`) and the cached height `height_`. -/
inductive node where
  | nil : node
  | mk (value : Int) (left : node) (right : node) (height : Nat) : node
deriving DecidableEq, Repr

/-- Dereference `->value_` (junk value `0` for a null pointer, which the C++
code never dereferences on the paths we model). -/
def node.value : node → Int
  | .nil => 0
  | .mk v _ _ _ => v

/-- Dereference `->left_` (null pointer gives null). -/
def node.left : node → node
  | .nil => .nil
  | .mk _ l _ _ => l

/-- Dereference `->right_` (null pointer gives null). -/
def node.right : node → node
  | .nil => .nil
  | .mk _ _ r _ => r

/-- `avl_tree::height(ptr)`: `ptr ? ptr->height_ : 0` — reads the cached
height field, 0 for a null pointer. -/
def height : node → Nat
  | .nil => 0
  | .mk _ _ _ h => h

/-- In-order list of values of a subtree (left, node, right).  This is the
sequence an in-order walk of the pointer structure produces. -/
def toList : node → List Int
  | .nil => []
  | .mk v l r _ => toList l ++ v :: toList r

/-- `static constexpr size_type ALLOWED_IMBALANCE = 1`. -/
def ALLOWED_IMBALANCE : Nat := 1

/-- The kinds of action `avl_tree::balance` can take on a node. -/
inductive RotKind where
  | noRot : RotKind
  | singleLeft : RotKind
  | doubleLeft : RotKind
  | singleRight : RotKind
  | doubleRight : RotKind
deriving DecidableEq, Repr

/-- The branch `avl_tree::balance` selects for a given node, with exactly the
source's conditions: left-heavy when
`height(ptr->left_) > height(ptr->right_) + ALLOWED_IMBALANCE`, then single
rotation when `height(ptr->left_->left_) >= height(ptr->left_->right_)`
(mirrored on the right).  In the heavy branches the child is necessarily
non-null (its cached height exceeds 1), so the C++ dereference is safe and
agrees with the total accessors `node.left` / `node.right`. -/
def rotKind : node → RotKind
  | .nil => .noRot
  | .mk _ l r _ =>
    if height r + ALLOWED_IMBALANCE < height l then
      if height (node.right l) ≤ height (node.left l) then .singleLeft
      else .doubleLeft
    else if height l + ALLOWED_IMBALANCE < height r then
      if height (node.left r) ≤ height (node.right r) then .singleRight
      else .doubleRight
    else .noRot

/-- `avl_tree::single_rotate_left`: promote the left child.  The C++ first
recomputes the demoted node's height, then the promoted node's height (which
reads the freshly updated height of the demoted node).  Only called with a
non-null left child; other shapes are returned unchanged (unreachable). -/
def single_rotate_left : node → node
  | .mk v (.mk lv ll lr _) r _ =>
    let p := node.mk v lr r (max (height lr) (height r) + 1)
    node.mk lv ll p (max (height ll) (height p) + 1)
  | t => t

/-- `avl_tree::single_rotate_right`: mirror image. -/
def single_rotate_right : node → node
  | .mk v l (.mk rv rl rr _) _ =>
    let p := node.mk v l rl (max (height l) (height rl) + 1)
    node.mk rv p rr (max (height rr) (height p) + 1)
  | t => t

/-- `avl_tree::double_rotate_left`: `single_rotate_right(ptr->left_)` then
`single_rotate_left(ptr)`. -/
def double_rotate_left : node → node
  | .mk v l r h => single_rotate_left (node.mk v (single_rotate_right l) r h)
  | .nil => .nil

/-- `avl_tree::double_rotate_right`: `single_rotate_left(ptr->right_)` then
`single_rotate_right(ptr)`. -/
def double_rotate_right : node → node
  | .mk v l r h => single_rotate_right (node.mk v l (single_rotate_left r) h)
  | .nil => .nil

/-- Apply the selected rotation. -/
def applyRot : RotKind → node → node
  | .noRot, t => t
  | .singleLeft, t => single_rotate_left t
  | .doubleLeft, t => double_rotate_left t
  | .singleRight, t => single_rotate_right t
  | .doubleRight, t => double_rotate_right t

/-- The final statement of `avl_tree::balance`:
`ptr->height_ = std::max(height(ptr->left_), height(ptr->right_)) + 1`
(no-op on a null pointer, since `balance` returns early there). -/
def set_height : node → node
  | .nil => .nil
  | .mk v l r _ => node.mk v l r (max (height l) (height r) + 1)

/-- `avl_tree::balance(ptr)`: early return on null, otherwise perform the
selected rotation (if any) and recompute the node's cached height. -/
def balance (t : node) : node :=
  set_height (applyRot (rotKind t) t)

/-- The private recursive `avl_tree::insert(value_type &&value, node_ptr &ptr)`.
Returns the updated subtree, whether `++size_` was executed (a new node was
created), and the list of branches taken by the `balance` calls on the unwind
path, deepest call first.  On equality the C++ returns early, skipping
`balance`, which is why that case contributes nothing to the log. -/
def insert (value : Int) : node → node × Bool × List RotKind
  | .nil =>
    let t0 := node.mk value .nil .nil 1
    (balance t0, true, [rotKind t0])
  | .mk v l r h =>
    if value < v then
      let res := insert value l
      let t1 := node.mk v res.1 r h
      (balance t1, res.2.1, res.2.2 ++ [rotKind t1])
    else if v < value then
      let res := insert value r
      let t1 := node.mk v l res.1 h
      (balance t1, res.2.1, res.2.2 ++ [rotKind t1])
    else
      (node.mk v l r h, false, [])

/-- `avl_tree::finMin(ptr)`: follow `left_` pointers to exhaustion and return
the value found there (`finMin` returns a raw node pointer in C++ and the
callers dereference it; for a null argument the C++ returns `nullptr`, which
no modelled caller dereferences — we return the junk value `0` there). -/
def finMin : node → Int
  | .nil => 0
  | .mk v .nil _ _ => v
  | .mk _ (.mk lv ll lr lh) _ _ => finMin (node.mk lv ll lr lh)

/-- `avl_tree::finMax(ptr)`: mirror image of `finMin`. -/
def finMax : node → Int
  | .nil => 0
  | .mk v _ .nil _ => v
  | .mk _ _ (.mk rv rl rr rh) _ => finMax (node.mk rv rl rr rh)

/-- The private recursive `avl_tree::remove(const value_type &value,
node_ptr &ptr)`.  Returns the updated subtree and whether `--size_` was
executed.  On null, early return; on a match with two children the node's
value is overwritten with `finMin` of the right subtree and that value is
removed from the right subtree; with at most one child the node is replaced
by its (possibly null) child.  Every non-early-return path ends with
`balance(ptr)`. -/
def remove (value : Int) : node → node × Bool
  | .nil => (.nil, false)
  | .mk v l r h =>
    if value < v then
      let res := remove value l
      (balance (node.mk v res.1 r h), res.2)
    else if v < value then
      let res := remove value r
      (balance (node.mk v l res.1 h), res.2)
    else
      match l, r with
      | .nil, _ => (balance r, true)
      | _, .nil => (balance l, true)
      | _, _ =>
        let m := finMin r
        let res := remove m r
        (balance (node.mk m l res.1 h), res.2)

/-- The non-recursive `avl_tree::contains`: iterative descent by the
comparator, `true` on the neither-less branch, `false` when a null pointer is
reached. -/
def contains (value : Int) : node → Bool
  | .nil => false
  | .mk v l r _ =>
    if value < v then contains value l
    else if v < value then contains value r
    else true

/-- The class `avl_tree<Int>` itself: the root pointer `root_` and the node
counter `size_`.  (`size_` is a `std::size_t`; it is modelled as `Nat`, and
the single `--size_` is modelled with truncated subtraction — the code only
decrements it right after detaching an actual node, so in every state the
code can reach the two agree.) -/
structure avl_tree where
  root : node
  size : Nat
deriving DecidableEq, Repr

/-- The default-constructed tree: null root, size 0. -/
def avl_tree.empty : avl_tree := ⟨.nil, 0⟩

/-- Public `avl_tree::insert(value)`: run the recursive insert on `root_`;
`size_` was incremented exactly when a node was created. -/
def avl_tree.insert (t : avl_tree) (value : Int) : avl_tree :=
  let res := mystl.insert value t.root
  ⟨res.1, if res.2.1 then t.size + 1 else t.size⟩

/-- Public `avl_tree::remove(value)`: run the recursive remove on `root_`;
`size_` was decremented exactly when a node was spliced out. -/
def avl_tree.remove (t : avl_tree) (value : Int) : avl_tree :=
  let res := mystl.remove value t.root
  ⟨res.1, if res.2 then t.size - 1 else t.size⟩

/-- `avl_tree::clear()`: `root_ = nullptr; size_ = 0`. -/
def avl_tree.clear (_ : avl_tree) : avl_tree := avl_tree.empty

/-- `avl_tree::min()`: throw `avl_tree_exception` when `empty()` (i.e.
`size_ == 0`), otherwise return `finMin(root_)->value_` by copy. -/
def avl_tree.min (t : avl_tree) : Except String Int :=
  if t.size = 0 then .error "avl_tree::min(): the tree is empty!"
  else .ok (finMin t.root)

/-- `avl_tree::max()`: throw `avl_tree_exception` when `empty()`, otherwise
return `finMax(root_)->value_` by copy. -/
def avl_tree.max (t : avl_tree) : Except String Int :=
  if t.size = 0 then .error "avl_tree::max(): the tree is empty!"
  else .ok (finMax t.root)

/-- The loop of the `const_iterator` constructor and of `operator++`:
`while (cur) { stack_.push(cur); cur = get_raw(cur->left_); }` — push every
node on the leftmost spine of `t` onto the stack `s` (topmost = head). -/
def push_left : node → List node → List node
  | .nil, s => s
  | .mk v l r h, s => push_left l (node.mk v l r h :: s)

/-- `k` steps of the iteration loop `for (it = begin(); it != end(); ++it)`
starting from stack `s`, collecting `*it` before each `++it`.  The loop runs
until `index_` reaches `size()`, i.e. for exactly `t.size` dereferences; an
empty stack with steps remaining is undefined behaviour in the C++
(`stack_.top()` on an empty stack) and yields nothing here — it is unreachable
from trees whose `size_` is correct. -/
def iterate : Nat → List node → List Int
  | 0, _ => []
  | _ + 1, [] => []
  | k + 1, n :: rest => node.value n :: iterate k (push_left (node.right n) rest)

/-- The in-order output still pending on an iterator stack: each entry
contributes its value followed by the in-order listing of its right subtree,
then come the entries below it.  (Specification device for reasoning about
`iterate`; not part of the C++ code.) -/
def stack_out : List node → List Int
  | [] => []
  | n :: rest => node.value n :: (toList (node.right n) ++ stack_out rest)

/-- The value sequence obtained by iterating from `begin()` to `end()`:
the begin constructor pushes the leftmost spine of `root_` (or starts at
`index_ = size()` for an empty tree), and the loop performs `size()`
dereference/advance steps. -/
def avl_tree.traversal (t : avl_tree) : List Int :=
  if t.size = 0 then [] else iterate t.size (push_left t.root [])

/-- `avl_tree::print(os, delim)`: `for (elem : *this) os << elem << delim;` —
the stream receives, in iteration order, each element's textual form
immediately followed by the delimiter. -/
def avl_tree.print (t : avl_tree) (delim : String) : String :=
  String.join (t.traversal.map (fun x => toString x ++ delim))

/-- `avl_tree::insert(size_type size, value_type &value)`:
`for (i = 0; i < size; ++i) insert(value);`. -/
def avl_tree.insert_count : avl_tree → Nat → Int → avl_tree
  | t, 0, _ => t
  | t, n + 1, v => avl_tree.insert_count (t.insert v) n v

/-- `avl_tree::assign(size_type size, value_type &value)`: `clear()` then
`insert(size, value)`. -/
def avl_tree.assign_count (t : avl_tree) (n : Nat) (v : Int) : avl_tree :=
  avl_tree.insert_count t.clear n v

/-- `avl_tree::operator==`: identity shortcut (`this == &other`, modelled by
the flag `same`), then size comparison, then `mystl::equal` over the two
begin/end iterator ranges, i.e. elementwise comparison of the iteration
sequences. -/
def eqOp (a b : avl_tree) (same : Bool) : Bool :=
  same || (decide (a.size = b.size) && decide (a.traversal = b.traversal))

/-- `avl_tree::operator=(avl_tree &&tree)`: `if (*this != tree) { clear();
swap(tree); }`.  `same` tells whether the two C++ objects are the same object
(`this == &tree`); the result is the pair (new target, new source).  After
`clear()` the target is empty, and `swap` then hands the source's root and
size to the target and the cleared state to the source. -/
def move_assign (target source : avl_tree) (same : Bool) : avl_tree × avl_tree :=
  if eqOp target source same then (target, source)
  else (source, avl_tree.empty)

/-- A single public mutating operation, for stating properties over arbitrary
operation sequences. -/
inductive Op where
  | ins (v : Int) : Op
  | rem (v : Int) : Op
deriving DecidableEq, Repr

/-- Apply one operation. -/
def applyOp (t : avl_tree) : Op → avl_tree
  | .ins v => t.insert v
  | .rem v => t.remove v

/-- Apply a sequence of operations, first element first. -/
def applyOps (t : avl_tree) (ops : List Op) : avl_tree :=
  ops.foldl applyOp t

/-! ## Invariants -/

/-- The computed (true) height of a subtree, ignoring the cached fields:
0 for an absent subtree, otherwise one more than the taller child. -/
def real_height : node → Nat
  | .nil => 0
  | .mk _ l r _ => max (real_height l) (real_height r) + 1

/-- Structural AVL invariant in terms of the cached heights: at every node the
cache equals `1 + max` of the children's caches and the children's caches
differ by at most 1.  (Together these force every cache to equal the true
height; see `good_heights`.) -/
def good : node → Bool
  | .nil => true
  | .mk _ l r h =>
    good l && good r && decide (h = max (height l) (height r) + 1) &&
      decide (height l ≤ height r + 1) && decide (height r ≤ height l + 1)

/-- The balance property exactly as the specification states it: every node's
subtree true heights differ by at most 1 and its cached height field equals
`1 + max` of the children's true heights (height of an absent subtree is 0). -/
def avl_prop : node → Bool
  | .nil => true
  | .mk _ l r h =>
    avl_prop l && avl_prop r &&
      decide (h = max (real_height l) (real_height r) + 1) &&
      decide (real_height l ≤ real_height r + 1) &&
      decide (real_height r ≤ real_height l + 1)

/-- All values in a subtree satisfy `p`. -/
def allNodes (p : Int → Bool) : node → Bool
  | .nil => true
  | .mk v l r _ => p v && allNodes p l && allNodes p r

/-- Search-tree order: at every node, everything on the left is strictly less
and everything on the right strictly greater. -/
def ordered : node → Bool
  | .nil => true
  | .mk v l r _ =>
    allNodes (fun x => decide (x < v)) l && allNodes (fun x => decide (v < x)) r &&
      ordered l && ordered r

/-- A well-formed tree object: AVL-balanced root with correct height caches,
search-tree ordered, and `size_` equal to the number of nodes. -/
def valid (t : avl_tree) : Bool :=
  good t.root && ordered t.root && decide (t.size = (toList t.root).length)

/-! ## Basic lemmas -/

@[simp] theorem height_nil : height node.nil = 0 := rfl

@[simp] theorem height_mk (v : Int) (l r : node) (h : Nat) :
    height (node.mk v l r h) = h := rfl

@[simp] theorem value_mk (v : Int) (l r : node) (h : Nat) :
    node.value (node.mk v l r h) = v := rfl

@[simp] theorem left_mk (v : Int) (l r : node) (h : Nat) :
    node.left (node.mk v l r h) = l := rfl

@[simp] theorem right_mk (v : Int) (l r : node) (h : Nat) :
    node.right (node.mk v l r h) = r := rfl

@[simp] theorem set_height_nil : set_height node.nil = node.nil := rfl

@[simp] theorem set_height_mk (v : Int) (l r : node) (h : Nat) :
    set_height (node.mk v l r h) =
      node.mk v l r (max (height l) (height r) + 1) := rfl

theorem srl_mk (v lv : Int) (ll lr r : node) (lh h : Nat) :
    single_rotate_left (node.mk v (node.mk lv ll lr lh) r h) =
      node.mk lv ll (node.mk v lr r (max (height lr) (height r) + 1))
        (max (height ll) (max (height lr) (height r) + 1) + 1) := rfl

theorem srr_mk (v rv : Int) (l rl rr : node) (rh h : Nat) :
    single_rotate_right (node.mk v l (node.mk rv rl rr rh) h) =
      node.mk rv (node.mk v l rl (max (height l) (height rl) + 1)) rr
        (max (height rr) (max (height l) (height rl) + 1) + 1) := rfl

theorem rotKind_mk (v : Int) (l r : node) (h : Nat) :
    rotKind (node.mk v l r h) =
      if height r + 1 < height l then
        (if height (node.right l) ≤ height (node.left l) then .singleLeft
          else .doubleLeft)
      else if height l + 1 < height r then
        (if height (node.left r) ≤ height (node.right r) then .singleRight
          else .doubleRight)
      else .noRot := rfl

theorem good_mk {v : Int} {l r : node} {h : Nat} :
    good (node.mk v l r h) = true ↔
      good l = true ∧ good r = true ∧ h = max (height l) (height r) + 1 ∧
        height l ≤ height r + 1 ∧ height r ≤ height l + 1 := by
  simp [good, and_assoc]

theorem toList_single_rotate_left (t : node) :
    toList (single_rotate_left t) = toList t := by
  cases t with
  | nil => rfl
  | mk v l r h =>
    cases l with
    | nil => rfl
    | mk lv ll lr lh => simp [single_rotate_left, toList]

theorem toList_single_rotate_right (t : node) :
    toList (single_rotate_right t) = toList t := by
  cases t with
  | nil => rfl
  | mk v l r h =>
    cases r with
    | nil => rfl
    | mk rv rl rr rh => simp [single_rotate_right, toList]

theorem toList_set_height (t : node) : toList (set_height t) = toList t := by
  cases t <;> rfl

theorem toList_balance (t : node) : toList (balance t) = toList t := by
  unfold balance
  cases hk : rotKind t <;>
    simp [applyRot, toList_set_height, toList_single_rotate_left,
      toList_single_rotate_right, double_rotate_left, double_rotate_right] <;>
    cases t <;>
    simp [double_rotate_left, double_rotate_right, toList_set_height,
      toList_single_rotate_left, toList_single_rotate_right, toList]

theorem balance_id {t : node} (g : good t = true) : balance t = t := by
  cases t with
  | nil => rfl
  | mk v l r h =>
    obtain ⟨-, -, hh, hb1, hb2⟩ := good_mk.mp g
    have hk : rotKind (node.mk v l r h) = .noRot := by
      rw [rotKind_mk, if_neg (by omega), if_neg (by omega)]
    rw [balance, hk]
    simp [applyRot, set_height, hh]

theorem allNodes_iff (p : Int → Bool) (t : node) :
    allNodes p t = true ↔ ∀ x ∈ toList t, p x = true := by
  induction t with
  | nil => simp [allNodes, toList]
  | mk v l r h ihl ihr =>
    simp only [allNodes, toList, Bool.and_eq_true, ihl, ihr, List.mem_append,
      List.mem_cons]
    constructor
    · rintro ⟨⟨hv, hl⟩, hr⟩ x hx
      rcases hx with hx | hx | hx
      · exact hl x hx
      · exact hx ▸ hv
      · exact hr x hx
    · intro hall
      exact ⟨⟨hall v (Or.inr (Or.inl rfl)), fun x hx => hall x (Or.inl hx)⟩,
        fun x hx => hall x (Or.inr (Or.inr hx))⟩

theorem ordered_iff_pairwise (t : node) :
    ordered t = true ↔ (toList t).Pairwise (· < ·) := by
  induction t with
  | nil => simp [ordered, toList]
  | mk v l r h ihl ihr =>
    simp only [ordered, toList, Bool.and_eq_true, allNodes_iff, ihl, ihr,
      List.pairwise_append, List.pairwise_cons, decide_eq_true_eq]
    constructor
    · rintro ⟨⟨⟨hlv, hvr⟩, hl⟩, hr⟩
      refine ⟨hl, ⟨hvr, hr⟩, ?_⟩
      intro x hx y hy
      rcases List.mem_cons.mp hy with hy | hy
      · exact hy ▸ hlv x hx
      · exact lt_trans (hlv x hx) (hvr y hy)
    · rintro ⟨hl, ⟨hvr, hr⟩, hcross⟩
      exact ⟨⟨⟨fun x hx => hcross x hx v (List.mem_cons_self v _), hvr⟩, hl⟩, hr⟩

theorem good_heights {t : node} (g : good t = true) :
    height t = real_height t := by
  induction t with
  | nil => rfl
  | mk v l r h ihl ihr =>
    obtain ⟨gl, gr, hh, -, -⟩ := good_mk.mp g
    simp only [height_mk, real_height, hh, ihl gl, ihr gr]

theorem good_avl_prop {t : node} (g : good t = true) : avl_prop t = true := by
  induction t with
  | nil => rfl
  | mk v l r h ihl ihr =>
    obtain ⟨gl, gr, hh, hb1, hb2⟩ := good_mk.mp g
    have el := good_heights gl
    have er := good_heights gr
    simp [avl_prop, ihl gl, ihr gr, ← el, ← er, hh]
    omega

/-- Main rebalancing lemma: if both children are AVL with correct caches and
their heights differ by at most 2, `balance` produces an AVL subtree with
correct caches whose height is `max` or `max + 1` of the children's heights;
when the children already differ by at most 1 the height is exactly
`max + 1`. -/
theorem balance_spec (v : Int) (l r : node) (h0 : Nat)
    (gl : good l = true) (gr : good r = true)
    (d1 : height l ≤ height r + 2) (d2 : height r ≤ height l + 2) :
    good (balance (node.mk v l r h0)) = true ∧
      max (height l) (height r) ≤ height (balance (node.mk v l r h0)) ∧
      height (balance (node.mk v l r h0)) ≤ max (height l) (height r) + 1 ∧
      (height l ≤ height r + 1 → height r ≤ height l + 1 →
        height (balance (node.mk v l r h0)) = max (height l) (height r) + 1) := by
  by_cases c1 : height r + 1 < height l
  · -- left-heavy: height l = height r + 2
    cases l with
    | nil => simp only [height_nil] at c1; omega
    | mk lv ll lr lh =>
      obtain ⟨gll, glr, hlh, hb1, hb2⟩ := good_mk.mp gl
      simp only [height_mk] at c1 d1 d2 ⊢
      by_cases c2 : height lr ≤ height ll
      · -- single left rotation
        have hk : rotKind (node.mk v (node.mk lv ll lr lh) r h0) = .singleLeft := by
          rw [rotKind_mk]
          simp only [height_mk, left_mk, right_mk]
          rw [if_pos c1, if_pos c2]
        simp only [balance, hk, applyRot, srl_mk, set_height_mk, height_mk,
          good_mk]
        refine ⟨?_, by intros; first | trivial | omega, by intros; first | trivial | omega, by intros; first | trivial | omega⟩
        repeat' apply And.intro
        all_goals intros; first | assumption | trivial | omega
      · -- double left rotation; the left child's right subtree is non-null
        cases lr with
        | nil => simp only [height_nil] at c2; omega
        | mk lrv lrl lrr lrh =>
          obtain ⟨glrl, glrr, hlrh, hc1, hc2⟩ := good_mk.mp glr
          simp only [height_mk] at c2 hlh hb1 hb2
          have hk : rotKind
              (node.mk v (node.mk lv ll (node.mk lrv lrl lrr lrh) lh) r h0) =
              .doubleLeft := by
            rw [rotKind_mk]
            simp only [height_mk, left_mk, right_mk]
            rw [if_pos c1, if_neg c2]
          simp only [balance, hk, applyRot, double_rotate_left, srr_mk, srl_mk,
            set_height_mk, height_mk, good_mk]
          refine ⟨?_, by intros; first | trivial | omega, by intros; first | trivial | omega, by intros; first | trivial | omega⟩
          repeat' apply And.intro
          all_goals intros; first | assumption | trivial | omega
  · by_cases c3 : height l + 1 < height r
    · -- right-heavy: height r = height l + 2
      cases r with
      | nil => simp only [height_nil] at c3; omega
      | mk rv rl rr rh =>
        obtain ⟨grl, grr, hrh, hb1, hb2⟩ := good_mk.mp gr
        simp only [height_mk] at c1 c3 d1 d2 ⊢
        by_cases c4 : height rl ≤ height rr
        · -- single right rotation
          have hk : rotKind (node.mk v l (node.mk rv rl rr rh) h0) =
              .singleRight := by
            rw [rotKind_mk]
            simp only [height_mk, left_mk, right_mk]
            rw [if_neg c1, if_pos c3, if_pos c4]
          simp only [balance, hk, applyRot, srr_mk, set_height_mk, height_mk,
            good_mk]
          refine ⟨?_, by intros; first | trivial | omega, by intros; first | trivial | omega, by intros; first | trivial | omega⟩
          repeat' apply And.intro
          all_goals intros; first | assumption | trivial | omega
        · -- double right rotation; the right child's left subtree is non-null
          cases rl with
          | nil => simp only [height_nil] at c4; omega
          | mk rlv rll rlr rlh =>
            obtain ⟨grll, grlr, hrlh, hc1, hc2⟩ := good_mk.mp grl
            simp only [height_mk] at c4 hrh hb1 hb2
            have hk : rotKind
                (node.mk v l (node.mk rv (node.mk rlv rll rlr rlh) rr rh) h0) =
                .doubleRight := by
              rw [rotKind_mk]
              simp only [height_mk, left_mk, right_mk]
              rw [if_neg c1, if_pos c3, if_neg c4]
            simp only [balance, hk, applyRot, double_rotate_right, srl_mk,
              srr_mk, set_height_mk, height_mk, good_mk]
            refine ⟨?_, by intros; first | trivial | omega, by intros; first | trivial | omega, by intros; first | trivial | omega⟩
            repeat' apply And.intro
            all_goals intros; first | assumption | trivial | omega
    · -- no rotation, only the height cache is recomputed
      have hk : rotKind (node.mk v l r h0) = .noRot := by
        rw [rotKind_mk, if_neg c1, if_neg c3]
      simp only [balance, hk, applyRot, set_height_mk, height_mk, good_mk]
      refine ⟨?_, by intros; first | trivial | omega, by intros; first | trivial | omega, by intros; first | trivial | omega⟩
      repeat' apply And.intro
      all_goals intros; first | assumption | trivial | omega

/-- Insertion preserves the AVL invariant, and grows the subtree height by at
most one. -/
theorem insert_good (t : node) (g : good t = true) (value : Int) :
    good (insert value t).1 = true ∧
      height t ≤ height (insert value t).1 ∧
      height (insert value t).1 ≤ height t + 1 := by
  induction t with
  | nil =>
    have hred : insert value node.nil =
        (node.mk value .nil .nil 1, true, [RotKind.noRot]) := by
      simp [insert, balance, rotKind, applyRot, ALLOWED_IMBALANCE]
    rw [hred]
    simp [good]
  | mk v l r h ihl ihr =>
    obtain ⟨gl, gr, hh, hb1, hb2⟩ := good_mk.mp g
    rcases lt_trichotomy value v with hc | hc | hc
    · obtain ⟨g2, hlo, hhi⟩ := ihl gl
      have hred : (insert value (node.mk v l r h)).1 =
          balance (node.mk v (insert value l).1 r h) := by
        simp [insert, hc]
      rw [hred]
      obtain ⟨bg, bl, bh, beq⟩ :=
        balance_spec v (insert value l).1 r h g2 gr (by omega) (by omega)
      refine ⟨bg, ?_, ?_⟩ <;>
      · rcases le_or_lt (height (insert value l).1) (height r + 1) with hp | hp
        · have := beq hp (by omega)
          simp only [height_mk]
          omega
        · simp only [height_mk]
          omega
    · subst hc
      have hred : insert value (node.mk value l r h) =
          (node.mk value l r h, false, []) := by
        simp [insert]
      rw [hred]
      exact ⟨g, le_refl _, Nat.le_succ _⟩
    · obtain ⟨g2, hlo, hhi⟩ := ihr gr
      have hred : (insert value (node.mk v l r h)).1 =
          balance (node.mk v l (insert value r).1 h) := by
        simp [insert, hc, asymm hc]
      rw [hred]
      obtain ⟨bg, bl, bh, beq⟩ :=
        balance_spec v l (insert value r).1 h gl g2 (by omega) (by omega)
      refine ⟨bg, ?_, ?_⟩ <;>
      · rcases le_or_lt (height (insert value r).1) (height l + 1) with hp | hp
        · have := beq (by omega) hp
          simp only [height_mk]
          omega
        · simp only [height_mk]
          omega

/-- Removal preserves the AVL invariant, and shrinks the subtree height by at
most one. -/
theorem remove_good (t : node) (g : good t = true) : ∀ value : Int,
    good (remove value t).1 = true ∧
      height (remove value t).1 ≤ height t ∧
      height t ≤ height (remove value t).1 + 1 := by
  induction t with
  | nil => intro value; simp [remove, good]
  | mk v l r h ihl ihr =>
    intro value
    obtain ⟨gl, gr, hh, hb1, hb2⟩ := good_mk.mp g
    rcases lt_trichotomy value v with hc | hc | hc
    · obtain ⟨g2, hlo, hhi⟩ := ihl gl value
      have hred : (remove value (node.mk v l r h)).1 =
          balance (node.mk v (remove value l).1 r h) := by
        simp [remove, hc]
      rw [hred]
      obtain ⟨bg, bl, bh, beq⟩ :=
        balance_spec v (remove value l).1 r h g2 gr (by omega) (by omega)
      refine ⟨bg, ?_, ?_⟩ <;>
      · rcases le_or_lt (height r) (height (remove value l).1 + 1) with hp | hp
        · have := beq (by omega) hp
          simp only [height_mk]
          omega
        · simp only [height_mk]
          omega
    · subst hc
      cases l with
      | nil =>
        have hred : (remove value (node.mk value node.nil r h)).1 = balance r := by
          simp [remove]
        rw [hred, balance_id gr]
        simp only [height_mk, height_nil] at hh ⊢
        exact ⟨gr, by omega, by omega⟩
      | mk lv ll lr lh =>
        cases r with
        | nil =>
          have hred : (remove value
              (node.mk value (node.mk lv ll lr lh) node.nil h)).1 =
              balance (node.mk lv ll lr lh) := by
            simp [remove]
          rw [hred, balance_id gl]
          simp only [height_mk, height_nil] at hh ⊢
          exact ⟨gl, by omega, by omega⟩
        | mk rv rl rr rh =>
          obtain ⟨g2, hlo, hhi⟩ := ihr gr (finMin (node.mk rv rl rr rh))
          have hred : (remove value (node.mk value (node.mk lv ll lr lh)
              (node.mk rv rl rr rh) h)).1 =
              balance (node.mk (finMin (node.mk rv rl rr rh))
                (node.mk lv ll lr lh)
                (remove (finMin (node.mk rv rl rr rh)) (node.mk rv rl rr rh)).1
                h) := by
            simp [remove]
          rw [hred]
          obtain ⟨bg, bl, bh, beq⟩ :=
            balance_spec (finMin (node.mk rv rl rr rh)) (node.mk lv ll lr lh)
              (remove (finMin (node.mk rv rl rr rh)) (node.mk rv rl rr rh)).1 h
              gl g2 (by omega) (by omega)
          refine ⟨bg, ?_, ?_⟩ <;>
          · rcases le_or_lt (height (node.mk lv ll lr lh))
              (height (remove (finMin (node.mk rv rl rr rh))
                (node.mk rv rl rr rh)).1 + 1) with hp | hp
            · have := beq hp (by omega)
              simp only [height_mk] at *
              omega
            · simp only [height_mk] at *
              omega
    · obtain ⟨g2, hlo, hhi⟩ := ihr gr value
      have hred : (remove value (node.mk v l r h)).1 =
          balance (node.mk v l (remove value r).1 h) := by
        simp [remove, hc, asymm hc]
      rw [hred]
      obtain ⟨bg, bl, bh, beq⟩ :=
        balance_spec v l (remove value r).1 h gl g2 (by omega) (by omega)
      refine ⟨bg, ?_, ?_⟩ <;>
      · rcases le_or_lt (height l) (height (remove value r).1 + 1) with hp | hp
        · have := beq hp (by omega)
          simp only [height_mk]
          omega
        · simp only [height_mk]
          omega

theorem ordered_mk {v : Int} {l r : node} {h : Nat} :
    ordered (node.mk v l r h) = true ↔
      allNodes (fun x => decide (x < v)) l = true ∧
        allNodes (fun x => decide (v < x)) r = true ∧
        ordered l = true ∧ ordered r = true := by
  simp [ordered, and_assoc]

theorem ordered_balance {t : node} :
    ordered (balance t) = true ↔ ordered t = true := by
  rw [ordered_iff_pairwise, ordered_iff_pairwise, toList_balance]

theorem mem_toList_insert (value x : Int) (t : node)
    (hx : x ∈ toList (insert value t).1) : x = value ∨ x ∈ toList t := by
  induction t with
  | nil =>
    simp [insert, toList_balance, toList] at hx
    exact Or.inl hx
  | mk v l r h ihl ihr =>
    rcases lt_trichotomy value v with hc | hc | hc
    · rw [show (insert value (node.mk v l r h)).1 =
          balance (node.mk v (insert value l).1 r h) by simp [insert, hc],
        toList_balance, toList] at hx
      simp only [List.mem_append, List.mem_cons] at hx
      rcases hx with hx | hx | hx
      · rcases ihl hx with hx | hx
        · exact Or.inl hx
        · exact Or.inr (by simp [toList, hx])
      · exact Or.inr (by simp [toList, hx])
      · exact Or.inr (by simp [toList, hx])
    · subst hc
      rw [show (insert value (node.mk value l r h)).1 = node.mk value l r h by
        simp [insert]] at hx
      exact Or.inr hx
    · rw [show (insert value (node.mk v l r h)).1 =
          balance (node.mk v l (insert value r).1 h) by simp [insert, hc, asymm hc],
        toList_balance, toList] at hx
      simp only [List.mem_append, List.mem_cons] at hx
      rcases hx with hx | hx | hx
      · exact Or.inr (by simp [toList, hx])
      · exact Or.inr (by simp [toList, hx])
      · rcases ihr hx with hx | hx
        · exact Or.inl hx
        · exact Or.inr (by simp [toList, hx])

theorem insert_self_mem (value : Int) (t : node) :
    value ∈ toList (insert value t).1 := by
  induction t with
  | nil => simp [insert, toList_balance, toList]
  | mk v l r h ihl ihr =>
    rcases lt_trichotomy value v with hc | hc | hc
    · rw [show (insert value (node.mk v l r h)).1 =
          balance (node.mk v (insert value l).1 r h) by simp [insert, hc],
        toList_balance, toList]
      simp [ihl]
    · subst hc
      rw [show (insert value (node.mk value l r h)).1 = node.mk value l r h by
        simp [insert]]
      simp [toList]
    · rw [show (insert value (node.mk v l r h)).1 =
          balance (node.mk v l (insert value r).1 h) by simp [insert, hc, asymm hc],
        toList_balance, toList]
      simp [ihr]

theorem allNodes_insert {p : Int → Bool} {t : node} {value : Int}
    (ht : allNodes p t = true) (hv : p value = true) :
    allNodes p (insert value t).1 = true := by
  rw [allNodes_iff] at ht ⊢
  intro x hx
  rcases mem_toList_insert value x t hx with hx | hx
  · exact hx ▸ hv
  · exact ht x hx

theorem insert_ordered {t : node} (o : ordered t = true) (value : Int) :
    ordered (insert value t).1 = true := by
  induction t with
  | nil =>
    rw [show (insert value node.nil).1 = node.mk value .nil .nil 1 by
      simp [insert, balance, rotKind, applyRot, ALLOWED_IMBALANCE]]
    simp [ordered, allNodes]
  | mk v l r h ihl ihr =>
    obtain ⟨al, ar, ol, or_⟩ := ordered_mk.mp o
    rcases lt_trichotomy value v with hc | hc | hc
    · rw [show (insert value (node.mk v l r h)).1 =
          balance (node.mk v (insert value l).1 r h) by simp [insert, hc]]
      exact ordered_balance.mpr (ordered_mk.mpr
        ⟨allNodes_insert al (by simp [hc]), ar, ihl ol, or_⟩)
    · subst hc
      rw [show (insert value (node.mk value l r h)).1 = node.mk value l r h by
        simp [insert]]
      exact o
    · rw [show (insert value (node.mk v l r h)).1 =
          balance (node.mk v l (insert value r).1 h) by simp [insert, hc, asymm hc]]
      exact ordered_balance.mpr (ordered_mk.mpr
        ⟨al, allNodes_insert ar (by simp [hc]), ol, ihr or_⟩)

theorem toList_finMin (t : node) (ht : t ≠ node.nil) :
    ∃ rest, toList t = finMin t :: rest := by
  induction t with
  | nil => exact absurd rfl ht
  | mk v l r h ihl ihr =>
    cases l with
    | nil => exact ⟨toList r, by simp [toList, finMin]⟩
    | mk lv ll lr lh =>
      obtain ⟨restl, hrestl⟩ := ihl (by simp)
      refine ⟨restl ++ v :: toList r, ?_⟩
      rw [toList, hrestl]
      simp [finMin]

theorem finMin_mem (t : node) (ht : t ≠ node.nil) : finMin t ∈ toList t := by
  obtain ⟨rest, hrest⟩ := toList_finMin t ht
  simp [hrest]

theorem contains_iff_mem {t : node} (o : ordered t = true) (value : Int) :
    contains value t = true ↔ value ∈ toList t := by
  induction t with
  | nil => simp [contains, toList]
  | mk v l r h ihl ihr =>
    obtain ⟨al, ar, ol, or_⟩ := ordered_mk.mp o
    rw [allNodes_iff] at al ar
    simp only [decide_eq_true_eq] at al ar
    rcases lt_trichotomy value v with hc | hc | hc
    · rw [show contains value (node.mk v l r h) = contains value l by
        simp [contains, hc], ihl ol]
      simp only [toList, List.mem_append, List.mem_cons]
      constructor
      · exact fun hx => Or.inl hx
      · rintro (hx | hx | hx)
        · exact hx
        · omega
        · have := ar value hx
          omega
    · subst hc
      rw [show contains value (node.mk value l r h) = true by simp [contains]]
      simp [toList]
    · rw [show contains value (node.mk v l r h) = contains value r by
        simp [contains, hc, asymm hc], ihr or_]
      simp only [toList, List.mem_append, List.mem_cons]
      constructor
      · exact fun hx => Or.inr (Or.inr hx)
      · rintro (hx | hx | hx)
        · have := al value hx
          omega
        · omega
        · exact hx

theorem filter_keep (L : List Int) {value : Int} (hL : ∀ x ∈ L, x ≠ value) :
    L.filter (fun x => decide (x ≠ value)) = L :=
  List.filter_eq_self.mpr (fun a ha => by simpa using hL a ha)

theorem filter_middle (L R : List Int) {v : Int}
    (hL : ∀ x ∈ L, x ≠ v) (hR : ∀ x ∈ R, x ≠ v) :
    (L ++ v :: R).filter (fun x => decide (x ≠ v)) = L ++ R := by
  rw [List.filter_append, filter_keep L hL,
    List.filter_cons_of_neg (by simp), filter_keep R hR]

theorem finMin_least {t : node} (o : ordered t = true) (ht : t ≠ node.nil) :
    ∀ x ∈ toList t, x = finMin t ∨ finMin t < x := by
  obtain ⟨rest, hrest⟩ := toList_finMin t ht
  have hp := (ordered_iff_pairwise t).mp o
  rw [hrest] at hp
  intro x hx
  rw [hrest] at hx
  rcases List.mem_cons.mp hx with hx | hx
  · exact Or.inl hx
  · exact Or.inr ((List.pairwise_cons.mp hp).1 x hx)

theorem toList_remove_mem (t : node) : ∀ value x,
    x ∈ toList (remove value t).1 → x ∈ toList t := by
  induction t with
  | nil => intro value x hx; simpa [remove] using hx
  | mk v l r h ihl ihr =>
    intro value x hx
    rcases lt_trichotomy value v with hc | hc | hc
    · rw [show (remove value (node.mk v l r h)).1 =
          balance (node.mk v (remove value l).1 r h) by simp [remove, hc],
        toList_balance,
        show toList (node.mk v (remove value l).1 r h) =
          toList (remove value l).1 ++ v :: toList r from rfl] at hx
      rw [show toList (node.mk v l r h) = toList l ++ v :: toList r from rfl]
      rcases List.mem_append.mp hx with hx | hx
      · exact List.mem_append.mpr (Or.inl (ihl value x hx))
      · exact List.mem_append.mpr (Or.inr hx)
    · subst hc
      cases l with
      | nil =>
        rw [show (remove value (node.mk value node.nil r h)).1 = balance r by
          simp [remove], toList_balance] at hx
        rw [show toList (node.mk value node.nil r h) =
            [] ++ value :: toList r from rfl]
        exact List.mem_append.mpr (Or.inr (List.mem_cons_of_mem _ hx))
      | mk lv ll lr lh =>
        cases r with
        | nil =>
          rw [show (remove value
              (node.mk value (node.mk lv ll lr lh) node.nil h)).1 =
              balance (node.mk lv ll lr lh) by simp [remove],
            toList_balance] at hx
          rw [show toList (node.mk value (node.mk lv ll lr lh) node.nil h) =
              toList (node.mk lv ll lr lh) ++ value :: [] from rfl]
          exact List.mem_append.mpr (Or.inl hx)
        | mk rv rl rr rh =>
          rw [show (remove value (node.mk value (node.mk lv ll lr lh)
              (node.mk rv rl rr rh) h)).1 =
              balance (node.mk (finMin (node.mk rv rl rr rh))
                (node.mk lv ll lr lh)
                (remove (finMin (node.mk rv rl rr rh))
                  (node.mk rv rl rr rh)).1 h) by simp [remove],
            toList_balance,
            show toList (node.mk (finMin (node.mk rv rl rr rh))
                (node.mk lv ll lr lh)
                (remove (finMin (node.mk rv rl rr rh))
                  (node.mk rv rl rr rh)).1 h) =
              toList (node.mk lv ll lr lh) ++ finMin (node.mk rv rl rr rh) ::
                toList (remove (finMin (node.mk rv rl rr rh))
                  (node.mk rv rl rr rh)).1 from rfl] at hx
          rw [show toList (node.mk value (node.mk lv ll lr lh)
              (node.mk rv rl rr rh) h) =
              toList (node.mk lv ll lr lh) ++ value ::
                toList (node.mk rv rl rr rh) from rfl]
          rcases List.mem_append.mp hx with hx | hx
          · exact List.mem_append.mpr (Or.inl hx)
          · rcases List.mem_cons.mp hx with hx | hx
            · refine List.mem_append.mpr (Or.inr (List.mem_cons_of_mem _ ?_))
              rw [hx]
              exact finMin_mem _ (by simp)
            · exact List.mem_append.mpr (Or.inr (List.mem_cons_of_mem _
                (ihr _ x hx)))
    · rw [show (remove value (node.mk v l r h)).1 =
          balance (node.mk v l (remove value r).1 h) by
            simp [remove, hc, asymm hc],
        toList_balance,
        show toList (node.mk v l (remove value r).1 h) =
          toList l ++ v :: toList (remove value r).1 from rfl] at hx
      rw [show toList (node.mk v l r h) = toList l ++ v :: toList r from rfl]
      rcases List.mem_append.mp hx with hx | hx
      · exact List.mem_append.mpr (Or.inl hx)
      · rcases List.mem_cons.mp hx with hx | hx
        · refine List.mem_append.mpr (Or.inr ?_)
          rw [hx]
          exact List.mem_cons_self _ _
        · exact List.mem_append.mpr (Or.inr (List.mem_cons_of_mem _
            (ihr value x hx)))

theorem allNodes_remove {p : Int → Bool} {t : node} (ht : allNodes p t = true)
    (value : Int) : allNodes p (remove value t).1 = true := by
  rw [allNodes_iff] at ht ⊢
  exact fun x hx => ht x (toList_remove_mem t value x hx)

theorem remove_filter {t : node} (o : ordered t = true) : ∀ value : Int,
    toList (remove value t).1 =
      (toList t).filter (fun x => decide (x ≠ value)) := by
  induction t with
  | nil => intro value; simp [remove, toList]
  | mk v l r h ihl ihr =>
    intro value
    obtain ⟨al, ar, ol, or_⟩ := ordered_mk.mp o
    rw [allNodes_iff] at al ar
    simp only [decide_eq_true_eq] at al ar
    rcases lt_trichotomy value v with hc | hc | hc
    · rw [show (remove value (node.mk v l r h)).1 =
          balance (node.mk v (remove value l).1 r h) by simp [remove, hc],
        toList_balance,
        show toList (node.mk v (remove value l).1 r h) =
          toList (remove value l).1 ++ v :: toList r from rfl,
        show toList (node.mk v l r h) = toList l ++ v :: toList r from rfl,
        ihl ol value, List.filter_append,
        List.filter_cons_of_pos (by simp only [decide_eq_true_eq]; omega),
        filter_keep (toList r) (fun x hx => by have := ar x hx; omega)]
    · subst hc
      cases l with
      | nil =>
        rw [show (remove value (node.mk value node.nil r h)).1 = balance r by
          simp [remove], toList_balance]
        rw [show toList (node.mk value node.nil r h) =
            value :: toList r from rfl,
          List.filter_cons_of_neg (by simp),
          filter_keep (toList r) (fun x hx => by have := ar x hx; omega)]
      | mk lv ll lr lh =>
        cases r with
        | nil =>
          rw [show (remove value
              (node.mk value (node.mk lv ll lr lh) node.nil h)).1 =
              balance (node.mk lv ll lr lh) by simp [remove], toList_balance]
          rw [show toList (node.mk value (node.mk lv ll lr lh) node.nil h) =
              toList (node.mk lv ll lr lh) ++ value :: [] from rfl,
            filter_middle (toList (node.mk lv ll lr lh)) []
              (fun x hx => by have := al x hx; omega) (by simp),
            List.append_nil]
        | mk rv rl rr rh =>
          rw [show (remove value (node.mk value (node.mk lv ll lr lh)
              (node.mk rv rl rr rh) h)).1 =
              balance (node.mk (finMin (node.mk rv rl rr rh))
                (node.mk lv ll lr lh)
                (remove (finMin (node.mk rv rl rr rh))
                  (node.mk rv rl rr rh)).1 h) by simp [remove],
            toList_balance,
            show toList (node.mk (finMin (node.mk rv rl rr rh))
                (node.mk lv ll lr lh)
                (remove (finMin (node.mk rv rl rr rh))
                  (node.mk rv rl rr rh)).1 h) =
              toList (node.mk lv ll lr lh) ++ finMin (node.mk rv rl rr rh) ::
                toList (remove (finMin (node.mk rv rl rr rh))
                  (node.mk rv rl rr rh)).1 from rfl,
            ihr or_ (finMin (node.mk rv rl rr rh))]
          obtain ⟨rest, hrest⟩ := toList_finMin (node.mk rv rl rr rh) (by simp)
          have hp := (ordered_iff_pairwise (node.mk rv rl rr rh)).mp or_
          rw [hrest] at hp
          have hrestne : ∀ x ∈ rest, x ≠ finMin (node.mk rv rl rr rh) := by
            intro x hx
            have := (List.pairwise_cons.mp hp).1 x hx
            omega
          rw [show toList (node.mk value (node.mk lv ll lr lh)
              (node.mk rv rl rr rh) h) =
              toList (node.mk lv ll lr lh) ++ value ::
                toList (node.mk rv rl rr rh) from rfl,
            filter_middle (toList (node.mk lv ll lr lh))
              (toList (node.mk rv rl rr rh))
              (fun x hx => by have := al x hx; omega)
              (fun x hx => by have := ar x hx; omega),
            hrest, List.filter_cons_of_neg (by simp), filter_keep rest hrestne]
    · rw [show (remove value (node.mk v l r h)).1 =
          balance (node.mk v l (remove value r).1 h) by
            simp [remove, hc, asymm hc],
        toList_balance,
        show toList (node.mk v l (remove value r).1 h) =
          toList l ++ v :: toList (remove value r).1 from rfl,
        show toList (node.mk v l r h) = toList l ++ v :: toList r from rfl,
        ihr or_ value, List.filter_append,
        List.filter_cons_of_pos (by simp only [decide_eq_true_eq]; omega),
        filter_keep (toList l) (fun x hx => by have := al x hx; omega)]
theorem remove_ordered {t : node} (o : ordered t = true) : ∀ value : Int,
    ordered (remove value t).1 = true := by
  induction t with
  | nil => intro value; simp [remove, ordered]
  | mk v l r h ihl ihr =>
    intro value
    obtain ⟨al, ar, ol, or_⟩ := ordered_mk.mp o
    rcases lt_trichotomy value v with hc | hc | hc
    · rw [show (remove value (node.mk v l r h)).1 =
          balance (node.mk v (remove value l).1 r h) by simp [remove, hc]]
      exact ordered_balance.mpr (ordered_mk.mpr
        ⟨allNodes_remove al value, ar, ihl ol value, or_⟩)
    · subst hc
      cases l with
      | nil =>
        rw [show (remove value (node.mk value node.nil r h)).1 = balance r by
          simp [remove]]
        exact ordered_balance.mpr or_
      | mk lv ll lr lh =>
        cases r with
        | nil =>
          rw [show (remove value
              (node.mk value (node.mk lv ll lr lh) node.nil h)).1 =
              balance (node.mk lv ll lr lh) by simp [remove]]
          exact ordered_balance.mpr ol
        | mk rv rl rr rh =>
          rw [show (remove value (node.mk value (node.mk lv ll lr lh)
              (node.mk rv rl rr rh) h)).1 =
              balance (node.mk (finMin (node.mk rv rl rr rh))
                (node.mk lv ll lr lh)
                (remove (finMin (node.mk rv rl rr rh))
                  (node.mk rv rl rr rh)).1 h) by simp [remove]]
          have hvm : value < finMin (node.mk rv rl rr rh) := by
            have := (allNodes_iff _ _).mp ar _ (finMin_mem _ (by simp))
            simpa using this
          refine ordered_balance.mpr (ordered_mk.mpr ⟨?_, ?_, ol,
            ihr or_ (finMin (node.mk rv rl rr rh))⟩)
          · rw [allNodes_iff] at al ⊢
            intro x hx
            have := al x hx
            simp only [decide_eq_true_eq] at this ⊢
            omega
          · rw [allNodes_iff]
            intro x hx
            rw [remove_filter or_] at hx
            rcases List.mem_filter.mp hx with ⟨hmem, hne⟩
            rcases finMin_least or_ (by simp) x hmem with he | hlt
            · simp [he] at hne
            · simpa using hlt
    · rw [show (remove value (node.mk v l r h)).1 =
          balance (node.mk v l (remove value r).1 h) by
            simp [remove, hc, asymm hc]]
      exact ordered_balance.mpr (ordered_mk.mpr
        ⟨al, allNodes_remove ar value, ol, ihr or_ value⟩)

theorem remove_flag {t : node} (o : ordered t = true) : ∀ value : Int,
    (remove value t).2 = contains value t := by
  induction t with
  | nil => intro value; simp [remove, contains]
  | mk v l r h ihl ihr =>
    intro value
    obtain ⟨al, ar, ol, or_⟩ := ordered_mk.mp o
    rcases lt_trichotomy value v with hc | hc | hc
    · rw [show (remove value (node.mk v l r h)).2 = (remove value l).2 by
          simp [remove, hc],
        show contains value (node.mk v l r h) = contains value l by
          simp [contains, hc]]
      exact ihl ol value
    · subst hc
      rw [show contains value (node.mk value l r h) = true by simp [contains]]
      cases l with
      | nil => simp [remove]
      | mk lv ll lr lh =>
        cases r with
        | nil => simp [remove]
        | mk rv rl rr rh =>
          rw [show (remove value (node.mk value (node.mk lv ll lr lh)
              (node.mk rv rl rr rh) h)).2 =
              (remove (finMin (node.mk rv rl rr rh))
                (node.mk rv rl rr rh)).2 by simp [remove]]
          rw [ihr or_ (finMin (node.mk rv rl rr rh))]
          exact (contains_iff_mem or_ _).mpr (finMin_mem _ (by simp))
    · rw [show (remove value (node.mk v l r h)).2 = (remove value r).2 by
          simp [remove, hc, asymm hc],
        show contains value (node.mk v l r h) = contains value r by
          simp [contains, hc, asymm hc]]
      exact ihr or_ value

/-- Inserting a value already present leaves the tree unchanged and does not
touch the counter (the C++ hits the equality branch and returns early; the
`balance` calls on the unwind path find the node unchanged and rotate
nothing). -/
theorem insert_present {t : node} (g : good t = true) (o : ordered t = true) :
    ∀ value : Int, contains value t = true →
      (insert value t).1 = t ∧ (insert value t).2.1 = false := by
  induction t with
  | nil => intro value hc; simp [contains] at hc
  | mk v l r h ihl ihr =>
    intro value hc
    obtain ⟨gl, gr, hh, hb1, hb2⟩ := good_mk.mp g
    obtain ⟨al, ar, ol, or_⟩ := ordered_mk.mp o
    rcases lt_trichotomy value v with hcmp | hcmp | hcmp
    · rw [show contains value (node.mk v l r h) = contains value l by
        simp [contains, hcmp]] at hc
      obtain ⟨h1, h2⟩ := ihl gl ol value hc
      constructor
      · rw [show (insert value (node.mk v l r h)).1 =
            balance (node.mk v (insert value l).1 r h) by simp [insert, hcmp],
          h1]
        exact balance_id g
      · rw [show (insert value (node.mk v l r h)).2.1 =
            (insert value l).2.1 by simp [insert, hcmp]]
        exact h2
    · subst hcmp
      constructor
      · rw [show (insert value (node.mk value l r h)).1 =
          node.mk value l r h by simp [insert]]
      · rw [show (insert value (node.mk value l r h)).2.1 = false by
          simp [insert]]
    · rw [show contains value (node.mk v l r h) = contains value r by
        simp [contains, hcmp, asymm hcmp]] at hc
      obtain ⟨h1, h2⟩ := ihr gr or_ value hc
      constructor
      · rw [show (insert value (node.mk v l r h)).1 =
            balance (node.mk v l (insert value r).1 h) by
              simp [insert, hcmp, asymm hcmp],
          h1]
        exact balance_id g
      · rw [show (insert value (node.mk v l r h)).2.1 =
            (insert value r).2.1 by simp [insert, hcmp, asymm hcmp]]
        exact h2

/-- Removing an absent value is a complete no-op: the recursive descent falls
off a null pointer, every `balance` on the way back finds its node unchanged,
and the counter is untouched. -/
theorem remove_absent {t : node} (g : good t = true) (o : ordered t = true) :
    ∀ value : Int, contains value t = false → remove value t = (t, false) := by
  induction t with
  | nil => intro value _; simp [remove]
  | mk v l r h ihl ihr =>
    intro value hc
    obtain ⟨gl, gr, hh, hb1, hb2⟩ := good_mk.mp g
    obtain ⟨al, ar, ol, or_⟩ := ordered_mk.mp o
    rcases lt_trichotomy value v with hcmp | hcmp | hcmp
    · rw [show contains value (node.mk v l r h) = contains value l by
        simp [contains, hcmp]] at hc
      rw [show remove value (node.mk v l r h) =
          (balance (node.mk v (remove value l).1 r h), (remove value l).2) by
            simp [remove, hcmp],
        ihl gl ol value hc]
      simp [balance_id g]
    · subst hcmp
      rw [show contains value (node.mk value l r h) = true by
        simp [contains]] at hc
      exact absurd hc (by simp)
    · rw [show contains value (node.mk v l r h) = contains value r by
        simp [contains, hcmp, asymm hcmp]] at hc
      rw [show remove value (node.mk v l r h) =
          (balance (node.mk v l (remove value r).1 h), (remove value r).2) by
            simp [remove, hcmp, asymm hcmp],
        ihr gr or_ value hc]
      simp [balance_id g]

theorem avl_tree_insert_root (t : avl_tree) (value : Int) :
    (t.insert value).root = (insert value t.root).1 := rfl

theorem avl_tree_insert_size (t : avl_tree) (value : Int) :
    (t.insert value).size =
      if (insert value t.root).2.1 then t.size + 1 else t.size := rfl

theorem avl_tree_remove_root (t : avl_tree) (value : Int) :
    (t.remove value).root = (remove value t.root).1 := rfl

theorem avl_tree_remove_size (t : avl_tree) (value : Int) :
    (t.remove value).size =
      if (remove value t.root).2 then t.size - 1 else t.size := rfl

theorem insert_length (t : node) (value : Int) :
    (toList (insert value t).1).length =
      (toList t).length + (if (insert value t).2.1 then 1 else 0) := by
  induction t with
  | nil =>
    rw [show insert value node.nil =
      (node.mk value .nil .nil 1, true, [RotKind.noRot]) by
        simp [insert, balance, rotKind, applyRot, ALLOWED_IMBALANCE]]
    simp [toList]
  | mk v l r h ihl ihr =>
    rcases lt_trichotomy value v with hc | hc | hc
    · rw [show (insert value (node.mk v l r h)).1 =
          balance (node.mk v (insert value l).1 r h) by simp [insert, hc],
        show (insert value (node.mk v l r h)).2.1 = (insert value l).2.1 by
          simp [insert, hc],
        toList_balance,
        show toList (node.mk v (insert value l).1 r h) =
          toList (insert value l).1 ++ v :: toList r from rfl,
        show toList (node.mk v l r h) = toList l ++ v :: toList r from rfl]
      simp only [List.length_append, List.length_cons]
      cases hb : (insert value l).2.1 <;> simp [hb] at ihl ⊢ <;> omega
    · subst hc
      rw [show insert value (node.mk value l r h) =
        (node.mk value l r h, false, []) by simp [insert]]
      simp
    · rw [show (insert value (node.mk v l r h)).1 =
          balance (node.mk v l (insert value r).1 h) by
            simp [insert, hc, asymm hc],
        show (insert value (node.mk v l r h)).2.1 = (insert value r).2.1 by
          simp [insert, hc, asymm hc],
        toList_balance,
        show toList (node.mk v l (insert value r).1 h) =
          toList l ++ v :: toList (insert value r).1 from rfl,
        show toList (node.mk v l r h) = toList l ++ v :: toList r from rfl]
      simp only [List.length_append, List.length_cons]
      cases hb : (insert value r).2.1 <;> simp [hb] at ihr ⊢ <;> omega

theorem remove_length (t : node) : ∀ value : Int,
    (toList (remove value t).1).length +
      (if (remove value t).2 then 1 else 0) = (toList t).length := by
  induction t with
  | nil => intro value; simp [remove, toList]
  | mk v l r h ihl ihr =>
    intro value
    rcases lt_trichotomy value v with hc | hc | hc
    · rw [show (remove value (node.mk v l r h)).1 =
          balance (node.mk v (remove value l).1 r h) by simp [remove, hc],
        show (remove value (node.mk v l r h)).2 = (remove value l).2 by
          simp [remove, hc],
        toList_balance,
        show toList (node.mk v (remove value l).1 r h) =
          toList (remove value l).1 ++ v :: toList r from rfl,
        show toList (node.mk v l r h) = toList l ++ v :: toList r from rfl]
      simp only [List.length_append, List.length_cons]
      cases hb : (remove value l).2 <;> have := ihl value <;>
        simp [hb] at this ⊢ <;> omega
    · subst hc
      cases l with
      | nil =>
        rw [show remove value (node.mk value node.nil r h) =
          (balance r, true) by simp [remove]]
        simp [toList_balance, toList]
      | mk lv ll lr lh =>
        cases r with
        | nil =>
          rw [show remove value
              (node.mk value (node.mk lv ll lr lh) node.nil h) =
              (balance (node.mk lv ll lr lh), true) by simp [remove]]
          simp [toList_balance, toList]
          omega
        | mk rv rl rr rh =>
          rw [show remove value (node.mk value (node.mk lv ll lr lh)
              (node.mk rv rl rr rh) h) =
              (balance (node.mk (finMin (node.mk rv rl rr rh))
                (node.mk lv ll lr lh)
                (remove (finMin (node.mk rv rl rr rh))
                  (node.mk rv rl rr rh)).1 h),
               (remove (finMin (node.mk rv rl rr rh))
                 (node.mk rv rl rr rh)).2) by simp [remove],
            toList_balance]
          rw [show toList (node.mk (finMin (node.mk rv rl rr rh))
              (node.mk lv ll lr lh)
              (remove (finMin (node.mk rv rl rr rh))
                (node.mk rv rl rr rh)).1 h) =
            toList (node.mk lv ll lr lh) ++ finMin (node.mk rv rl rr rh) ::
              toList (remove (finMin (node.mk rv rl rr rh))
                (node.mk rv rl rr rh)).1 from rfl]
          rw [show toList (node.mk value (node.mk lv ll lr lh)
              (node.mk rv rl rr rh) h) =
            toList (node.mk lv ll lr lh) ++ value ::
              toList (node.mk rv rl rr rh) from rfl]
          simp only [List.length_append, List.length_cons]
          have := ihr (finMin (node.mk rv rl rr rh))
          cases hb : (remove (finMin (node.mk rv rl rr rh))
              (node.mk rv rl rr rh)).2 <;>
            simp [hb] at this ⊢ <;> omega
    · rw [show (remove value (node.mk v l r h)).1 =
          balance (node.mk v l (remove value r).1 h) by
            simp [remove, hc, asymm hc],
        show (remove value (node.mk v l r h)).2 = (remove value r).2 by
          simp [remove, hc, asymm hc],
        toList_balance,
        show toList (node.mk v l (remove value r).1 h) =
          toList l ++ v :: toList (remove value r).1 from rfl,
        show toList (node.mk v l r h) = toList l ++ v :: toList r from rfl]
      simp only [List.length_append, List.length_cons]
      cases hb : (remove value r).2 <;> have := ihr value <;>
        simp [hb] at this ⊢ <;> omega

/-- `insert` preserves the whole-tree well-formedness (AVL + order + size). -/
theorem insert_valid {t : avl_tree} (hv : valid t = true) (value : Int) :
    valid (t.insert value) = true := by
  simp only [valid, Bool.and_eq_true, decide_eq_true_eq] at hv ⊢
  obtain ⟨⟨hg, ho⟩, hs⟩ := hv
  refine ⟨⟨?_, ?_⟩, ?_⟩
  · rw [avl_tree_insert_root]
    exact (insert_good t.root hg value).1
  · rw [avl_tree_insert_root]
    exact insert_ordered ho value
  · rw [avl_tree_insert_root, avl_tree_insert_size]
    have hlen := insert_length t.root value
    cases hb : (insert value t.root).2.1 <;> simp [hb] at hlen ⊢ <;> omega

/-- `remove` preserves the whole-tree well-formedness (AVL + order + size). -/
theorem remove_valid {t : avl_tree} (hv : valid t = true) (value : Int) :
    valid (t.remove value) = true := by
  simp only [valid, Bool.and_eq_true, decide_eq_true_eq] at hv ⊢
  obtain ⟨⟨hg, ho⟩, hs⟩ := hv
  refine ⟨⟨?_, ?_⟩, ?_⟩
  · rw [avl_tree_remove_root]
    exact (remove_good t.root hg value).1
  · rw [avl_tree_remove_root]
    exact remove_ordered ho value
  · rw [avl_tree_remove_root, avl_tree_remove_size]
    have hlen := remove_length t.root value
    cases hb : (remove value t.root).2 <;> simp [hb] at hlen ⊢ <;> omega

theorem valid_empty : valid avl_tree.empty = true := rfl

theorem valid_applyOps (ops : List Op) : ∀ t : avl_tree, valid t = true →
    valid (applyOps t ops) = true := by
  induction ops with
  | nil => intro t h; simpa [applyOps] using h
  | cons op rest ih =>
    intro t h
    rw [show applyOps t (op :: rest) = applyOps (applyOp t op) rest from rfl]
    apply ih
    cases op with
    | ins v => exact insert_valid h v
    | rem v => exact remove_valid h v

theorem stack_out_push_left (t : node) : ∀ s : List node,
    stack_out (push_left t s) = toList t ++ stack_out s := by
  induction t with
  | nil => intro s; simp [push_left, toList]
  | mk v l r h ihl ihr =>
    intro s
    rw [show push_left (node.mk v l r h) s =
        push_left l (node.mk v l r h :: s) from rfl, ihl]
    simp [stack_out, toList]

theorem iterate_stack_out : ∀ (k : Nat) (s : List node),
    k = (stack_out s).length → iterate k s = stack_out s := by
  intro k
  induction k with
  | zero =>
    intro s hk
    cases s with
    | nil => simp [iterate, stack_out]
    | cons n rest => simp [stack_out] at hk
  | succ k ih =>
    intro s hk
    cases s with
    | nil => simp [stack_out] at hk
    | cons n rest =>
      rw [show iterate (k + 1) (n :: rest) =
          node.value n :: iterate k (push_left (node.right n) rest) from rfl,
        show stack_out (n :: rest) =
          node.value n :: (toList (node.right n) ++ stack_out rest) from rfl]
      congr 1
      rw [ih (push_left (node.right n) rest) ?_, stack_out_push_left]
      rw [stack_out_push_left]
      rw [show stack_out (n :: rest) =
        node.value n :: (toList (node.right n) ++ stack_out rest) from rfl]
        at hk
      simp at hk ⊢
      omega

/-- On a tree whose `size_` counter is correct, begin-to-end iteration yields
exactly the in-order listing of the root. -/
theorem traversal_eq_toList {t : avl_tree}
    (hs : t.size = (toList t.root).length) :
    t.traversal = toList t.root := by
  by_cases h0 : t.size = 0
  · simp only [avl_tree.traversal, if_pos h0]
    have hlen : (toList t.root).length = 0 := by omega
    exact (List.length_eq_zero.mp hlen).symm
  · simp only [avl_tree.traversal, if_neg h0]
    have hso : stack_out (push_left t.root []) = toList t.root := by
      rw [stack_out_push_left]
      simp [stack_out]
    rw [iterate_stack_out t.size (push_left t.root []) (by rw [hso, hs]), hso]

theorem toList_finMax (t : node) (ht : t ≠ node.nil) :
    ∃ front, toList t = front ++ [finMax t] := by
  induction t with
  | nil => exact absurd rfl ht
  | mk v l r h ihl ihr =>
    cases r with
    | nil => exact ⟨toList l, by simp [toList, finMax]⟩
    | mk rv rl rr rh =>
      obtain ⟨front, hfront⟩ := ihr (by simp)
      refine ⟨toList l ++ v :: front, ?_⟩
      rw [show toList (node.mk v l (node.mk rv rl rr rh) h) =
        toList l ++ v :: toList (node.mk rv rl rr rh) from rfl, hfront]
      simp [finMax]

theorem finMax_mem (t : node) (ht : t ≠ node.nil) : finMax t ∈ toList t := by
  obtain ⟨front, hfront⟩ := toList_finMax t ht
  simp [hfront]

theorem finMax_greatest {t : node} (o : ordered t = true) (ht : t ≠ node.nil) :
    ∀ x ∈ toList t, x = finMax t ∨ x < finMax t := by
  obtain ⟨front, hfront⟩ := toList_finMax t ht
  have hp := (ordered_iff_pairwise t).mp o
  rw [hfront] at hp
  intro x hx
  rw [hfront] at hx
  rcases List.mem_append.mp hx with hx | hx
  · exact Or.inr ((List.pairwise_append.mp hp).2.2 x hx _
      (List.mem_singleton_self _))
  · exact Or.inl (List.mem_singleton.mp hx)

/-- Re-inserting the value just inserted is a no-op at the tree level. -/
theorem insert_again {t : avl_tree} (hv : valid t = true) (value : Int) :
    (t.insert value).insert value = t.insert value := by
  simp only [valid, Bool.and_eq_true, decide_eq_true_eq] at hv
  obtain ⟨⟨hg, ho⟩, hs⟩ := hv
  have hg2 : good (t.insert value).root = true := by
    rw [avl_tree_insert_root]; exact (insert_good t.root hg value).1
  have ho2 : ordered (t.insert value).root = true := by
    rw [avl_tree_insert_root]; exact insert_ordered ho value
  have hc : contains value (t.insert value).root = true := by
    rw [avl_tree_insert_root]
    exact (contains_iff_mem (insert_ordered ho value) value).mpr
      (insert_self_mem value t.root)
  obtain ⟨h1, h2⟩ := insert_present hg2 ho2 value hc
  have hred : (t.insert value).insert value =
      ⟨(insert value (t.insert value).root).1,
        if (insert value (t.insert value).root).2.1 then
          (t.insert value).size + 1
        else (t.insert value).size⟩ := rfl
  rw [hred, h1, h2]
  simp

/-- The repetition loop of `insert(size, value)` with a positive count has the
same effect as a single `insert(value)`. -/
theorem insert_count_eq (value : Int) : ∀ (n : Nat) (t : avl_tree),
    valid t = true → t.insert_count (n + 1) value = t.insert value := by
  intro n
  induction n with
  | zero => intro t _; rfl
  | succ n ih =>
    intro t hv
    rw [show t.insert_count (n + 2) value =
      (t.insert value).insert_count (n + 1) value from rfl,
      ih (t.insert value) (insert_valid hv value), insert_again hv value]


theorem flatten_rotate (D : List Char) : ∀ L : List (List Char),
    D ++ (L.map (fun x => x ++ D)).flatten =
      (L.map (fun x => D ++ x)).flatten ++ D := by
  intro L
  induction L with
  | nil => simp
  | cons b tl ih =>
    simp only [List.map_cons, List.flatten_cons, List.append_assoc] at ih ⊢
    rw [ih]

theorem intercalate_go_data (d : String) : ∀ (ss : List String) (acc : String),
    (String.intercalate.go acc d ss).data =
      acc.data ++ (String.join (ss.map (fun x => d ++ x))).data := by
  intro ss
  induction ss with
  | nil =>
    intro acc
    simp [String.intercalate.go, String.join]
  | cons a tl ih =>
    intro acc
    rw [show String.intercalate.go acc d (a :: tl) =
      String.intercalate.go (acc ++ d ++ a) d tl from rfl, ih]
    simp [String.data_append]

theorem join_map_eq_intercalate (d : String) : ∀ ss : List String, ss ≠ [] →
    String.join (ss.map (fun x => x ++ d)) = String.intercalate d ss ++ d := by
  intro ss h
  cases ss with
  | nil => exact absurd rfl h
  | cons a tl =>
    apply String.ext
    rw [show String.intercalate d (a :: tl) = String.intercalate.go a d tl
      from rfl]
    rw [String.data_append, intercalate_go_data d tl a]
    simp only [List.map_cons, String.data_join, List.map_map, List.flatten_cons,
      String.data_append, Function.comp]
    have hrot := flatten_rotate d.data (tl.map String.data)
    simp only [List.map_map, Function.comp_def, String.data_append] at hrot
    simp only [Function.comp_def, String.data_append, List.append_assoc] at hrot ⊢
    rw [hrot]

/-! ## Claim theorems -/

/-- C1: for every sequence of insert and remove operations applied to an
initially empty tree, after each operation every node satisfies
`|height(left) - height(right)| <= 1` and its cached height field equals
`1 + max(height(left), height(right))`, heights of absent subtrees being 0
(`avl_prop` states exactly this, in terms of true subtree heights). -/
theorem claim_C1_invariant_preservation (ops : List Op) :
    avl_prop (applyOps avl_tree.empty ops).root = true := by
  have hv := valid_applyOps ops avl_tree.empty valid_empty
  simp only [valid, Bool.and_eq_true] at hv
  exact good_avl_prop hv.1.1

/-- C2: after every sequence of insert and remove operations on an initially
empty tree, iterating from `begin()` to `end()` yields a strictly ascending
sequence with no duplicates, and the values yielded are exactly the values
the tree contains. -/
theorem claim_C2_order_preservation (ops : List Op) :
    ((applyOps avl_tree.empty ops).traversal).Pairwise (· < ·) ∧
      ((applyOps avl_tree.empty ops).traversal).Nodup ∧
      (∀ v : Int, v ∈ (applyOps avl_tree.empty ops).traversal ↔
        contains v (applyOps avl_tree.empty ops).root = true) := by
  have hv := valid_applyOps ops avl_tree.empty valid_empty
  simp only [valid, Bool.and_eq_true, decide_eq_true_eq] at hv
  obtain ⟨⟨hg, ho⟩, hs⟩ := hv
  rw [traversal_eq_toList hs]
  have hp := (ordered_iff_pairwise _).mp ho
  exact ⟨hp, hp.imp (fun hab => ne_of_lt hab),
    fun v => (contains_iff_mem ho v).symm⟩

/-- C5: inserting a value already present leaves the tree unchanged (same
root structure, same size), and inserting the same value twice in a row is
identical to inserting it once. -/
theorem claim_C5_insert_idempotent :
    (∀ (t : avl_tree) (v : Int), valid t = true →
      contains v t.root = true → t.insert v = t) ∧
    (∀ (t : avl_tree) (v : Int), valid t = true →
      (t.insert v).insert v = t.insert v) := by
  constructor
  · intro t v hv hc
    simp only [valid, Bool.and_eq_true, decide_eq_true_eq] at hv
    obtain ⟨⟨hg, ho⟩, hs⟩ := hv
    obtain ⟨h1, h2⟩ := insert_present hg ho v hc
    have hred : t.insert v =
        ⟨(insert v t.root).1,
          if (insert v t.root).2.1 then t.size + 1 else t.size⟩ := rfl
    rw [hred, h1, h2]
    simp
  · intro t v hv
    exact insert_again hv v

/-- C5 witness: inserting 2 into a tree already containing 2 is a no-op, and
double insertion equals single insertion, at a concrete tree. -/
theorem claim_C5_insert_idempotent_witness :
    ((avl_tree.empty.insert 2).insert 2 = avl_tree.empty.insert 2) ∧
      (((avl_tree.empty.insert 7).insert 7).insert 7 =
        (avl_tree.empty.insert 7).insert 7) :=
  ⟨claim_C5_insert_idempotent.1 (avl_tree.empty.insert 2) 2 (by decide)
      (by decide),
    claim_C5_insert_idempotent.2 (avl_tree.empty.insert 7) 7 (by decide)⟩

/-- C7: removing a value that is not present is a total no-op — the tree
object (root structure and size counter, hence also traversal and balance)
is unchanged, and no failure is signalled (the modelled `remove` is a total
function, mirroring its `noexcept`). -/
theorem claim_C7_remove_absent_noop (t : avl_tree) (v : Int)
    (hv : valid t = true) (hc : contains v t.root = false) :
    t.remove v = t := by
  simp only [valid, Bool.and_eq_true, decide_eq_true_eq] at hv
  obtain ⟨⟨hg, ho⟩, hs⟩ := hv
  have hred : t.remove v =
      ⟨(remove v t.root).1,
        if (remove v t.root).2 then t.size - 1 else t.size⟩ := rfl
  rw [hred, remove_absent hg ho v hc]
  simp

/-- C7 witness: removing 9 from the tree {1, 2} leaves it unchanged. -/
theorem claim_C7_remove_absent_noop_witness :
    ((avl_tree.empty.insert 1).insert 2).remove 9 =
      (avl_tree.empty.insert 1).insert 2 :=
  claim_C7_remove_absent_noop ((avl_tree.empty.insert 1).insert 2) 9
    (by decide) (by decide)

/-- C8: evaluation of the move-assignment guard on the claim's failing input.
The C++ guard is `*this != tree`, whose `operator==` compares structurally
(with an identity shortcut), so for two distinct but structurally equal
trees no transfer happens at all: the source keeps its element instead of
being reset to the empty state.  Genuine self-move-assignment (same object,
`same = true`) is a no-op, as is assignment from a structurally equal
source. -/
theorem claim_C8_move_assign_behaviour :
    (∀ a b : avl_tree, move_assign a b true = (a, b)) ∧
      (move_assign (avl_tree.empty.insert 1) (avl_tree.empty.insert 1) false =
        (avl_tree.empty.insert 1, avl_tree.empty.insert 1)) ∧
      (avl_tree.empty.insert 1).size = 1 := by
  refine ⟨?_, by decide, by decide⟩
  intro a b
  simp [move_assign, eqOp]

/-- C3: removing a present value deletes exactly that one value (the
traversal loses exactly the occurrences of `v`, the count drops by exactly
one); at a node holding `v` with two children the code overwrites the node's
value with the minimum of the right subtree and removes that minimum from the
right subtree; and the concrete scenario: on the tree built from
{5,3,8,1,4,7,9}, `remove(5)` puts 7 at the root, yields traversal
[1,3,4,7,8,9] and size 6, and the balance invariant holds. -/
theorem claim_C3_remove_semantics :
    (∀ (t : avl_tree) (v : Int), valid t = true → contains v t.root = true →
      (t.remove v).size + 1 = t.size ∧
        (t.remove v).traversal =
          t.traversal.filter (fun x => decide (x ≠ v))) ∧
    (∀ (v : Int) (l r : node) (h : Nat), l ≠ node.nil → r ≠ node.nil →
      remove v (node.mk v l r h) =
        (balance (node.mk (finMin r) l (remove (finMin r) r).1 h),
          (remove (finMin r) r).2)) ∧
    ((applyOps avl_tree.empty [Op.ins 5, Op.ins 3, Op.ins 8, Op.ins 1,
        Op.ins 4, Op.ins 7, Op.ins 9]).remove 5).traversal =
      [1, 3, 4, 7, 8, 9] ∧
    ((applyOps avl_tree.empty [Op.ins 5, Op.ins 3, Op.ins 8, Op.ins 1,
        Op.ins 4, Op.ins 7, Op.ins 9]).remove 5).size = 6 ∧
    (node.value ((applyOps avl_tree.empty [Op.ins 5, Op.ins 3, Op.ins 8,
        Op.ins 1, Op.ins 4, Op.ins 7, Op.ins 9]).remove 5).root = 7 ∧
      good ((applyOps avl_tree.empty [Op.ins 5, Op.ins 3, Op.ins 8, Op.ins 1,
        Op.ins 4, Op.ins 7, Op.ins 9]).remove 5).root = true) := by
  refine ⟨?_, ?_, by decide, by decide, by decide, by decide⟩
  · intro t v hv hc
    have hv2 := remove_valid hv v
    simp only [valid, Bool.and_eq_true, decide_eq_true_eq] at hv hv2
    obtain ⟨⟨hg, ho⟩, hs⟩ := hv
    obtain ⟨⟨hg2, ho2⟩, hs2⟩ := hv2
    constructor
    · have hflag : (remove v t.root).2 = true := by
        rw [remove_flag ho v]; exact hc
      have hpos : 1 ≤ t.size := by
        have hmem := (contains_iff_mem ho v).mp hc
        have := List.length_pos.mpr (List.ne_nil_of_mem hmem)
        omega
      rw [avl_tree_remove_size, hflag]
      simp
      omega
    · rw [traversal_eq_toList hs2, traversal_eq_toList hs,
        avl_tree_remove_root, remove_filter ho v]
  · intro v l r h hl hr
    cases l with
    | nil => exact absurd rfl hl
    | mk lv ll lr lh =>
      cases r with
      | nil => exact absurd rfl hr
      | mk rv rl rr rh => simp [remove]

/-- C3 witness: the general removal statement instantiated on the concrete
seven-element tree (removing the present value 3 drops the size from 7 to 6
and filters 3 out of the traversal), and the two-children equation
instantiated at a concrete node. -/
theorem claim_C3_remove_semantics_witness :
    (((applyOps avl_tree.empty [Op.ins 5, Op.ins 3, Op.ins 8, Op.ins 1,
        Op.ins 4, Op.ins 7, Op.ins 9]).remove 3).size + 1 =
      (applyOps avl_tree.empty [Op.ins 5, Op.ins 3, Op.ins 8, Op.ins 1,
        Op.ins 4, Op.ins 7, Op.ins 9]).size ∧
      ((applyOps avl_tree.empty [Op.ins 5, Op.ins 3, Op.ins 8, Op.ins 1,
        Op.ins 4, Op.ins 7, Op.ins 9]).remove 3).traversal =
        ((applyOps avl_tree.empty [Op.ins 5, Op.ins 3, Op.ins 8, Op.ins 1,
          Op.ins 4, Op.ins 7, Op.ins 9]).traversal.filter
            (fun x => decide (x ≠ 3)))) ∧
    remove 5 (node.mk 5 (node.mk 3 node.nil node.nil 1)
        (node.mk 8 node.nil node.nil 1) 2) =
      (balance (node.mk (finMin (node.mk 8 node.nil node.nil 1))
        (node.mk 3 node.nil node.nil 1)
        (remove (finMin (node.mk 8 node.nil node.nil 1))
          (node.mk 8 node.nil node.nil 1)).1 2),
        (remove (finMin (node.mk 8 node.nil node.nil 1))
          (node.mk 8 node.nil node.nil 1)).2) :=
  ⟨claim_C3_remove_semantics.1 _ 3 (by decide) (by decide),
    claim_C3_remove_semantics.2.1 5 (node.mk 3 node.nil node.nil 1)
      (node.mk 8 node.nil node.nil 1) 2 (by decide) (by decide)⟩

/-- C4: the rebalancing case analysis — a node more than 1 taller on the left
gets a single left rotation when `height(l.left) >= height(l.right)` and a
double left rotation otherwise, mirrored on the right; with no excess
imbalance only the height cache is recomputed.  Concretely, inserting 3, 2, 1
in that order performs exactly one rotation, a single left rotation (the
other balance calls rotate nothing), and produces the tree with 2 at the
root, 1 and 3 as leaf children, heights 1-1-2. -/
theorem claim_C4_rebalance_cases :
    (∀ (v : Int) (l r : node) (h : Nat), height r + 1 < height l →
      (height (node.right l) ≤ height (node.left l) →
        rotKind (node.mk v l r h) = RotKind.singleLeft) ∧
      (height (node.left l) < height (node.right l) →
        rotKind (node.mk v l r h) = RotKind.doubleLeft)) ∧
    (∀ (v : Int) (l r : node) (h : Nat), height l + 1 < height r →
      (height (node.left r) ≤ height (node.right r) →
        rotKind (node.mk v l r h) = RotKind.singleRight) ∧
      (height (node.right r) < height (node.left r) →
        rotKind (node.mk v l r h) = RotKind.doubleRight)) ∧
    (∀ (v : Int) (l r : node) (h : Nat),
      height l ≤ height r + 1 → height r ≤ height l + 1 →
      balance (node.mk v l r h) = set_height (node.mk v l r h)) ∧
    ((insert 1 (applyOps avl_tree.empty [Op.ins 3, Op.ins 2]).root).2.2.filter
        (fun k => decide (k ≠ RotKind.noRot)) = [RotKind.singleLeft] ∧
      (insert 3 node.nil).2.2.filter
        (fun k => decide (k ≠ RotKind.noRot)) = [] ∧
      (insert 2 (applyOps avl_tree.empty [Op.ins 3]).root).2.2.filter
        (fun k => decide (k ≠ RotKind.noRot)) = [] ∧
      (applyOps avl_tree.empty [Op.ins 3, Op.ins 2, Op.ins 1]).root =
        node.mk 2 (node.mk 1 node.nil node.nil 1)
          (node.mk 3 node.nil node.nil 1) 2) := by
  refine ⟨?_, ?_, ?_, by decide, by decide, by decide, by decide⟩
  · intro v l r h hL
    constructor
    · intro hC
      rw [rotKind_mk, if_pos hL, if_pos hC]
    · intro hC
      rw [rotKind_mk, if_pos hL, if_neg (by omega)]
  · intro v l r h hR
    constructor
    · intro hC
      rw [rotKind_mk, if_neg (by omega), if_pos hR, if_pos hC]
    · intro hC
      rw [rotKind_mk, if_neg (by omega), if_pos hR, if_neg (by omega)]
  · intro v l r h h1 h2
    have hk : rotKind (node.mk v l r h) = RotKind.noRot := by
      rw [rotKind_mk, if_neg (by omega), if_neg (by omega)]
    show set_height (applyRot (rotKind (node.mk v l r h)) (node.mk v l r h)) =
      set_height (node.mk v l r h)
    rw [hk]
    rfl

/-- C4 witness: the three case-analysis statements applied at concrete
nodes: a left-heavy node with outer-heavy left child selects a single left
rotation, a right-heavy node with inner-heavy right child selects a double
right rotation, and a balanced node is only re-heighted. -/
theorem claim_C4_rebalance_cases_witness :
    rotKind (node.mk 9 (node.mk 5 (node.mk 4 node.nil node.nil 1)
        node.nil 2) node.nil 3) = RotKind.singleLeft ∧
      rotKind (node.mk 1 node.nil (node.mk 5 (node.mk 4 node.nil node.nil 1)
        node.nil 2) 3) = RotKind.doubleRight ∧
      balance (node.mk 7 node.nil node.nil 5) =
        set_height (node.mk 7 node.nil node.nil 5) :=
  ⟨(claim_C4_rebalance_cases.1 9 (node.mk 5 (node.mk 4 node.nil node.nil 1)
      node.nil 2) node.nil 3 (by decide)).1 (by decide),
    (claim_C4_rebalance_cases.2.1 1 node.nil
      (node.mk 5 (node.mk 4 node.nil node.nil 1) node.nil 2) 3
      (by decide)).2 (by decide),
    claim_C4_rebalance_cases.2.2.1 7 node.nil node.nil 5 (by decide)
      (by decide)⟩

/-- C6: `min()` and `max()` raise the empty-collection condition exactly when
the tree is empty; on a non-empty well-formed tree `min()` returns the least
element and `max()` the greatest (both members of the iteration sequence),
without failure.  They are the only operations of the embedding that return
an error at all — every other modelled operation is a total function. -/
theorem claim_C6_min_max :
    (∀ t : avl_tree, (∃ e, t.min = Except.error e) ↔ t.size = 0) ∧
    (∀ t : avl_tree, (∃ e, t.max = Except.error e) ↔ t.size = 0) ∧
    (∀ t : avl_tree, valid t = true → t.size ≠ 0 →
      ∃ m, t.min = Except.ok m ∧ m ∈ t.traversal ∧
        ∀ x ∈ t.traversal, m ≤ x) ∧
    (∀ t : avl_tree, valid t = true → t.size ≠ 0 →
      ∃ m, t.max = Except.ok m ∧ m ∈ t.traversal ∧
        ∀ x ∈ t.traversal, x ≤ m) := by
  refine ⟨?_, ?_, ?_, ?_⟩
  · intro t
    by_cases h0 : t.size = 0 <;> simp [avl_tree.min, h0]
  · intro t
    by_cases h0 : t.size = 0 <;> simp [avl_tree.max, h0]
  · intro t hv h0
    simp only [valid, Bool.and_eq_true, decide_eq_true_eq] at hv
    obtain ⟨⟨hg, ho⟩, hs⟩ := hv
    have hne : t.root ≠ node.nil := by
      intro hroot
      rw [hroot] at hs
      simp [toList] at hs
      omega
    refine ⟨finMin t.root, by simp [avl_tree.min, h0], ?_, ?_⟩
    · rw [traversal_eq_toList hs]
      exact finMin_mem t.root hne
    · intro x hx
      rw [traversal_eq_toList hs] at hx
      rcases finMin_least ho hne x hx with he | hlt
      · omega
      · omega
  · intro t hv h0
    simp only [valid, Bool.and_eq_true, decide_eq_true_eq] at hv
    obtain ⟨⟨hg, ho⟩, hs⟩ := hv
    have hne : t.root ≠ node.nil := by
      intro hroot
      rw [hroot] at hs
      simp [toList] at hs
      omega
    refine ⟨finMax t.root, by simp [avl_tree.max, h0], ?_, ?_⟩
    · rw [traversal_eq_toList hs]
      exact finMax_mem t.root hne
    · intro x hx
      rw [traversal_eq_toList hs] at hx
      rcases finMax_greatest ho hne x hx with he | hlt
      · omega
      · omega

/-- C6 witness: on the empty tree both queries fail; on the concrete tree
{2, 1, 3} the minimum 1 is returned, is among the iterated values, and is a
lower bound of them. -/
theorem claim_C6_min_max_witness :
    ((∃ e, avl_tree.empty.min = Except.error e) ↔
      avl_tree.empty.size = 0) ∧
    (∃ m, (((avl_tree.empty.insert 2).insert 1).insert 3).min =
        Except.ok m ∧
      m ∈ (((avl_tree.empty.insert 2).insert 1).insert 3).traversal ∧
      ∀ x ∈ (((avl_tree.empty.insert 2).insert 1).insert 3).traversal,
        m ≤ x) :=
  ⟨claim_C6_min_max.1 avl_tree.empty,
    claim_C6_min_max.2.2.1 (((avl_tree.empty.insert 2).insert 1).insert 3)
      (by decide) (by decide)⟩

/-- C9 counterexample: the claim says the delimiter appears only between
consecutive elements (i.e. the output is the `intercalate` of the elements),
but on the tree {1, 2} with delimiter "," the code writes "1,2," — the
delimiter also trails the final element. -/
theorem claim_C9_print_counterexample :
    ((avl_tree.empty.insert 1).insert 2).print "," ≠
      String.intercalate ","
        ((((avl_tree.empty.insert 1).insert 2).traversal).map toString) := by
  decide

/-- C9 (amended): `print` writes the elements in iteration order (ascending
for a well-formed tree), each element immediately followed by the delimiter —
so the delimiter separates consecutive elements and additionally trails the
last one; an empty tree produces no output. -/
theorem claim_C9_print_amended (t : avl_tree) (d : String) :
    (t.traversal = [] → t.print d = "") ∧
    (t.traversal ≠ [] → t.print d =
      String.intercalate d (t.traversal.map toString) ++ d) ∧
    (valid t = true → (t.traversal.map toString) =
      (toList t.root).map toString ∧ t.traversal.Pairwise (· < ·)) := by
  refine ⟨?_, ?_, ?_⟩
  · intro h
    simp [avl_tree.print, h]
    rfl
  · intro h
    rw [show t.print d =
      String.join ((t.traversal.map toString).map (fun x => x ++ d)) by
        simp [avl_tree.print, List.map_map, Function.comp_def]]
    exact join_map_eq_intercalate d _ (by simpa using h)
  · intro hv
    simp only [valid, Bool.and_eq_true, decide_eq_true_eq] at hv
    obtain ⟨⟨hg, ho⟩, hs⟩ := hv
    rw [traversal_eq_toList hs]
    exact ⟨rfl, (ordered_iff_pairwise _).mp ho⟩

/-- C9 witness: the amended statement applied to the concrete tree {1, 2}
with delimiter "," (output "1,2,"), and to the empty tree (no output). -/
theorem claim_C9_print_amended_witness :
    ((avl_tree.empty.insert 1).insert 2).print "," =
      String.intercalate ","
        ((((avl_tree.empty.insert 1).insert 2).traversal).map toString)
        ++ "," ∧
    avl_tree.empty.print "," = "" :=
  ⟨(claim_C9_print_amended ((avl_tree.empty.insert 1).insert 2) ",").2.1
      (by decide),
    (claim_C9_print_amended avl_tree.empty ",").1 (by decide)⟩

/-- C10: for a positive repetition count the overload `insert(n, v)` has
exactly the effect of a single `insert(v)`, and `assign(n, v)` always yields
a tree holding exactly the one element `v` (size 1), never `n` elements. -/
theorem claim_C10_count_overloads :
    (∀ (t : avl_tree) (n : Nat) (v : Int), valid t = true → 1 ≤ n →
      t.insert_count n v = t.insert v) ∧
    (∀ (t : avl_tree) (n : Nat) (v : Int), 1 ≤ n →
      (t.assign_count n v).size = 1 ∧
        (t.assign_count n v).traversal = [v]) := by
  constructor
  · intro t n v hv hn
    cases n with
    | zero => omega
    | succ m => exact insert_count_eq v m t hv
  · intro t n v hn
    cases n with
    | zero => omega
    | succ m =>
      rw [show t.assign_count (m + 1) v =
        avl_tree.empty.insert_count (m + 1) v from rfl,
        insert_count_eq v m avl_tree.empty valid_empty]
      exact ⟨rfl, rfl⟩

/-- C10 witness: inserting 5 three times into the tree {9} equals inserting
it once, and `assign(3, 5)` on that tree yields the one-element tree {5}. -/
theorem claim_C10_count_overloads_witness :
    (avl_tree.empty.insert 9).insert_count 3 5 =
      (avl_tree.empty.insert 9).insert 5 ∧
    ((avl_tree.empty.insert 9).assign_count 3 5).size = 1 ∧
    ((avl_tree.empty.insert 9).assign_count 3 5).traversal = [5] :=
  ⟨claim_C10_count_overloads.1 (avl_tree.empty.insert 9) 3 5 (by decide)
      (by decide),
    claim_C10_count_overloads.2 (avl_tree.empty.insert 9) 3 5 (by decide)⟩

end mystl
